import Mathlib

/-!
Verification of the command-execution orchestration layer of the hela
repository: the batch executor of @tunnckocore/execa/src/index.js, the
serial executor, shell adapter and task-runner facade of
packages/hela-core/src/index.js, and the build configuration generator of
packages/hela-dev/src/configs/build/index.js.

Conventions of the embedding:
* JavaScript option bags are the record ExecOptions; an absent key is none.
  Object.assign(a, b) is ExecOptions.assign a b.
* The collaborator p-map (the concurrency-limiting mapper pMap(commands,
  mapper, concurrency) the library exec delegates to) is modelled by its
  documented algorithm: start min(concurrency, n) items in input order;
  whenever an in-flight item completes, record its result at its input
  index and start the next pending item; on the first failing completion,
  reject at once with that error.  Real completion order is arbitrary, so
  the model takes a schedule: at each step the schedule picks which
  in-flight item completes next.  The run also emits a trace of start,
  finish and fail events, so that start order and overlap are observable.
* The collaborator execa (ProcessRunner) is a black box: a function from
  a command string and options to a result or an execution error.
* Fuel arguments only drive structural recursion; every entry point hands
  its recursion exactly the fuel its step count needs, and the lemmas
  verify that accounting.
-/

/-- JS truthiness of a value in a command position: none models a falsy
non-string (null, undefined, false, 0); a string is truthy iff non-empty. -/
def truthyCmd : Option String → Bool
  | none => false
  | some s => s != ""

/-- The commands argument of exec: a single command string (or falsy value)
or an array of them. -/
inductive Cmds where
  | single : Option String → Cmds
  | list : List (Option String) → Cmds
deriving Repr, DecidableEq

/-- The source line const commands = [].concat(cmds).filter(Boolean):
a single command becomes a one-element list and falsy entries are dropped. -/
def Cmds.normalize : Cmds → List String
  | .single c => ([c].filter truthyCmd).filterMap id
  | .list l => (l.filter truthyCmd).filterMap id

/-- An option bag as the executors read it.  Recognized keys are fields
(absent = none); concurrency is Option (Option Nat): the outer layer is
key presence, the inner none is the default Infinity.  Unrecognized keys
are the assoc list extra, passed through opaquely. -/
structure ExecOptions where
  preferLocal : Option Bool := none
  concurrency : Option (Option Nat) := none
  shell : Option Bool := none
  stdio : Option String := none
  env : Option (List (String × String)) := none
  cwd : Option String := none
  extra : List (String × String) := []
deriving Repr, DecidableEq

/-- pick b a: the value of a key after Object.assign when the overriding
object gives b for it and the base gives a. -/
def pick (b a : Option γ) : Option γ :=
  match b with
  | some x => some x
  | none => a

/-- Is key k present in the assoc list l. -/
def keyMem (k : String) (l : List (String × String)) : Bool :=
  l.any (fun p => p.1 == k)

/-- Object.assign on the unrecognized keys: entries of b override entries
of a with the same key. -/
def assignExtra (a b : List (String × String)) : List (String × String) :=
  a.filter (fun p => !(keyMem p.1 b)) ++ b

/-- Object.assign(\x7b\x7d, a, b) on option bags: keys present in b win. -/
def ExecOptions.assign (a b : ExecOptions) : ExecOptions where
  preferLocal := pick b.preferLocal a.preferLocal
  concurrency := pick b.concurrency a.concurrency
  shell := pick b.shell a.shell
  stdio := pick b.stdio a.stdio
  env := pick b.env a.env
  cwd := pick b.cwd a.cwd
  extra := assignExtra a.extra b.extra

/-- An observable event of a batch run: command i was started, completed
successfully, or completed with a failure. -/
inductive Ev where
  | start : Nat → Ev
  | finish : Nat → Ev
  | fail : Nat → Ev
deriving Repr, DecidableEq

/-- The event loop of the p-map collaborator after its initial fill.
out i is the (deterministic) outcome of item i; next is the first not yet
started index; the in-flight list holds started, uncompleted indices; ret
is the result array (ret[i] is filled at i's successful completion).  Each
step the schedule picks an in-flight item (head of sched, modulo the
in-flight count); a failing completion rejects at once, a successful one
records its value and starts the next pending item.  Fuel is one unit per
completion event; callers pass enough, and the lemmas check they do. -/
def pMapRun (out : Nat → Except ε β) (n : Nat) :
    Nat → List Nat → List Nat → List (Option β) → Nat →
    List Ev × Except ε (List (Option β))
  | _next, _sched, [], ret, _fuel => ([], Except.ok ret)
  | _next, _sched, _ :: _, ret, 0 => ([], Except.ok ret)
  | next, sched, i0 :: rest, ret, fuel + 1 =>
    let fl := i0 :: rest
    let k := sched.headD 0 % fl.length
    let i := fl.getD k 0
    match out i with
    | .error e => ([Ev.fail i], Except.error e)
    | .ok v =>
      let ret' := ret.set i (some v)
      let fl' := fl.eraseIdx k
      if next < n then
        let r := pMapRun out n (next + 1) sched.tail (fl' ++ [next]) ret' fuel
        (Ev.finish i :: Ev.start next :: r.1, r.2)
      else
        let r := pMapRun out n next sched.tail fl' ret' fuel
        (Ev.finish i :: r.1, r.2)

/-- The p-map collaborator: map f over items with a concurrency limit
(none = Infinity) under a completion schedule, returning the event trace
and the settled value: the results in input order, or the first error to
surface.  The initial fill starts min(concurrency, n) items in input
order before any completion, exactly as p-map's starting loop does. -/
def pMap [Inhabited α] (f : α → Except ε β) (items : List α)
    (conc : Option Nat) (sched : List Nat) : List Ev × Except ε (List β) :=
  let n := items.length
  let out : Nat → Except ε β := fun i => f (items.getD i default)
  let k := match conc with
    | none => n
    | some c => min c n
  let r := pMapRun out n k sched (List.range k) (List.replicate n (none : Option β)) n
  ((List.range k).map Ev.start ++ r.1, r.2.map (fun ret => ret.filterMap id))

/-- The indices of the start events of a trace, in input order of
occurrence. -/
def startedList (tr : List Ev) : List Nat :=
  tr.filterMap (fun e =>
    match e with
    | .start i => some i
    | _ => none)

/-- Fold of a trace tracking the current number of in-flight commands and
the maximum it ever reaches. -/
def peakAux : List Ev → Nat → Nat → Nat
  | [], _, m => m
  | Ev.start _ :: tr, cur, m => peakAux tr (cur + 1) (max m (cur + 1))
  | Ev.finish _ :: tr, cur, m => peakAux tr (cur - 1) m
  | Ev.fail _ :: tr, cur, m => peakAux tr (cur - 1) m

/-- The maximum number of commands simultaneously in flight over a trace;
two commands ever overlap exactly when this exceeds 1. -/
def peakInFlight (tr : List Ev) : Nat := peakAux tr 0 0

/-- The tail of the trace of a strictly serial run, after the start event
of item j: complete j (failing runs end at their fail event), and while
items remain, start and recurse on the next one. -/
def serialTailTrace (out : Nat → Except ε β) (n : Nat) : Nat → Nat → List Ev
  | _, 0 => []
  | j, fuel + 1 =>
    match out j with
    | .error _ => [Ev.fail j]
    | .ok _ =>
      if j + 1 < n then Ev.finish j :: Ev.start (j + 1) :: serialTailTrace out n (j + 1) fuel
      else [Ev.finish j]

/-- The settled value of a strictly serial run from item j: fill results
in input order until the first failure or the end of the items. -/
def serialResultFrom (out : Nat → Except ε β) (n : Nat) :
    Nat → Nat → List (Option β) → Except ε (List (Option β))
  | _, 0, ret => .ok ret
  | j, fuel + 1, ret =>
    match out j with
    | .error e => .error e
    | .ok v =>
      let ret' := ret.set j (some v)
      if j + 1 < n then serialResultFrom out n (j + 1) fuel ret' else .ok ret'

namespace Execa

/-- The base object of Object.assign(\x7b preferLocal: true \x7d, options)
in exec. -/
def defaultBase : ExecOptions := { preferLocal := some true }

/-- The options exec hands to execa.command for every command: the merge
of the preferLocal default with the caller options, with the concurrency
key destructured away (the rest-spread opts). -/
def effectiveOpts (options : ExecOptions) : ExecOptions :=
  { ExecOptions.assign defaultBase options with concurrency := none }

/-- The concurrency limit exec hands to p-map: the destructured
concurrency key, defaulting to Infinity (modelled none). -/
def concurrencyOf (options : ExecOptions) : Option Nat :=
  (ExecOptions.assign defaultBase options).concurrency.getD none

/-- exec of @tunnckocore/execa/src/index.js: normalize the commands,
split off concurrency, and p-map each command through the ProcessRunner
collaborator (runner models execa.command). -/
def exec (cmds : Cmds) (options : ExecOptions)
    (runner : String → ExecOptions → Except ε β) (sched : List Nat) :
    List Ev × Except ε (List β) :=
  pMap (fun c => runner c (effectiveOpts options)) cmds.normalize
    (concurrencyOf options) sched

/-- shell of @tunnckocore/execa/src/index.js:
exec(cmds, Object.assign(\x7b\x7d, options, \x7b shell: true \x7d)). -/
def shell (cmds : Cmds) (options : ExecOptions)
    (runner : String → ExecOptions → Except ε β) (sched : List Nat) :
    List Ev × Except ε (List β) :=
  exec cmds (ExecOptions.assign options { shell := some true }) runner sched

end Execa

namespace HelaCore

/-- defaultOptions of packages/hela-core/src/index.js: stdio inherit and
the ambient process environment (a parameter of the model). -/
def defaultOptions (envv : List (String × String)) : ExecOptions :=
  { stdio := some "inherit", env := some envv }

/-- The options hela-core's exec hands to execa.command for every
command: Object.assign(\x7b\x7d, defaultOptions, options). -/
def effectiveOpts (envv : List (String × String)) (options : ExecOptions) :
    ExecOptions :=
  ExecOptions.assign (defaultOptions envv) options

/-- The for-of loop of hela-core's exec: await each command in input
order; the first failure aborts and rejects the whole run. -/
def runSerial (g : String → Except ε β) : List String → Except ε Unit
  | [] => .ok ()
  | c :: rest =>
    match g c with
    | .error e => .error e
    | .ok _ => runSerial g rest

/-- exec of packages/hela-core/src/index.js: an async function that runs
the filtered commands serially and has no return statement, so its
promise resolves with undefined.  The resolved value is typed
Option (List β) so it can be compared with a result sequence: none is JS
undefined, and this exec only ever resolves none. -/
def exec (envv : List (String × String)) (cmds : Cmds) (options : ExecOptions)
    (runner : String → ExecOptions → Except ε β) : Except ε (Option (List β)) :=
  (runSerial (fun c => runner c (effectiveOpts envv options)) cmds.normalize).map
    (fun _ => (none : Option (List β)))

/-- shell of packages/hela-core/src/index.js:
exec(cmds, Object.assign(\x7b\x7d, options, \x7b shell: true \x7d)). -/
def shell (envv : List (String × String)) (cmds : Cmds) (options : ExecOptions)
    (runner : String → ExecOptions → Except ε β) : Except ε (Option (List β)) :=
  exec envv cmds (ExecOptions.assign options { shell := some true }) runner

/-- A parsed argument object (a minimist-style argv): pos models the key
named with a single underscore (the positional arguments) and flags the
remaining keys. -/
structure ArgvObj where
  pos : List String
  flags : List (String × String)
deriving Repr, DecidableEq

/-- A JS value a handler is applied to: a string (a positional argument)
or an argv object. -/
inductive JsVal where
  | str : String → JsVal
  | argv : ArgvObj → JsVal
deriving Repr, DecidableEq

/-- A JS error object with the three fields listen's enrichment attaches;
each starts absent (none) and is set by Object.assign at catch time. -/
structure JsErr where
  message : String
  commandArgv : Option JsVal := none
  commandArgs : Option (List JsVal) := none
  commandName : Option String := none
deriving Repr, DecidableEq

/-- What prog.parse(proc.argv, opts) hands back to listen (the sade
collaborator, lazy mode): undef when the parser resolved nothing (a falsy
result), or a record of the remaining positional arguments (args, absent
= none: an empty array is truthy in JS and is therefore some ⟦⟧), the
resolved command name (falsy = the empty string) and the matched task's
handler. -/
inductive ParseOutcome where
  | undef : ParseOutcome
  | res (args : Option (List JsVal)) (name : String)
      (handler : List JsVal → Except JsErr JsVal) : ParseOutcome

/-- listen of packages/hela-core/src/index.js, applied to the parse
result: return silently when the result is falsy or both its args and
name are falsy; otherwise await handler(...args), and on a thrown error
attach commandArgv (args.pop(): the last element, or undefined), then
commandArgs (the array the pop left) and commandName, and re-throw the
same error object. -/
def listen (p : ParseOutcome) : Except JsErr Unit :=
  match p with
  | .undef => .ok ()
  | .res args name handler =>
    if args.isNone && name == "" then .ok ()
    else
      let as := args.getD []
      match handler as with
      | .ok _ => .ok ()
      | .error err =>
        .error { err with
          commandArgv := as.getLast?
          commandArgs := some as.dropLast
          commandName := some name }

/-- A node of sade's command tree as hela's action reads it: the default
argument values, the declared options (flag, description, default) and
the handler. -/
structure TaskObj where
  default : ArgvObj := ⟨[], []⟩
  options : List (String × String × String) := []
  handler : List JsVal → Except JsErr JsVal := fun _ => .ok (.str "")

/-- Set key k to v in an assoc list (replacing an existing entry). -/
def setFlag (flags : List (String × String)) (k v : String) :
    List (String × String) :=
  assignExtra flags [(k, v)]

/-- Modelled from the spec: the option registration of the CLI-parsing
collaborator (sade), which this repository only calls.  Registering a
flag on a task records (flag, description, default) among the task's
options and stores the default value under the flag's key in the task's
default argument values. -/
def sadeOption (t : TaskObj) (flag desc dflt key : String) : TaskObj :=
  { t with
    options := t.options ++ [(flag, desc, dflt)]
    default := { t.default with flags := setFlag t.default.flags key dflt } }

/-- The mutable program state hela's action reads and writes: sade's
current command name and command tree, and the commands map the facade
adds. -/
structure HelaProg where
  curr : Option String := none
  tree : List (String × TaskObj) := []
  commands : List (String × TaskObj) := []

/-- tree⟦name⟧. -/
def findTask (l : List (String × TaskObj)) (name : String) : Option TaskObj :=
  (l.find? (fun p => p.1 == name)).map (fun p => p.2)

/-- tree⟦name⟧ = t. -/
def putTask (l : List (String × TaskObj)) (name : String) (t : TaskObj) :
    List (String × TaskObj) :=
  l.filter (fun p => p.1 != name) ++ [(name, t)]

/-- The fake argv the action wrapper synthesizes:
Object.assign(\x7b\x7d, taskObj.default, \x7b single-underscore-key:
⟦name⟧ \x7d): the task's default argument values with the positional
list overridden to just the task name. -/
def fakeArgvOf (d : ArgvObj) (name : String) : ArgvObj :=
  { d with pos := [name] }

/-- action of packages/hela-core/src/index.js: resolve the task name
(curr, or the implicit default name), wrap a function handler so every
invocation appends the synthesized fake argv to the arguments the parser
produced, register the cwd option on the task, and store the task under
its name.  The JS wrapper reads taskObj.default at call time, after the
cwd option has mutated it, so the model registers the option before the
wrapper captures the defaults; the handler does not read the options
list, so the order of those two updates is not observable. -/
def action (st : HelaProg) (fn : Option (List JsVal → Except JsErr JsVal))
    (cwd : String) : HelaProg :=
  let name := st.curr.getD "__default__"
  let t0 := (findTask st.tree name).getD {}
  let t1 := sadeOption t0 "--cwd" "Current working directory" cwd "cwd"
  let t2 :=
    match fn with
    | none => t1
    | some f =>
      { t1 with
        handler := fun args => f (args ++ [JsVal.argv (fakeArgvOf t1.default name)]) }
  { st with tree := putTask st.tree name t2, commands := putTask st.commands name t2 }

end HelaCore

namespace HelaDev

/-- The env record of createBuildConfig's options. -/
structure EnvObj where
  NODE_ENV : String
deriving Repr, DecidableEq

/-- The options createBuildConfig reads: mono (JS truthiness), env
(replacing the default wholesale when present, as Object.assign does for
a nested object) and cwd. -/
structure BuildOptions where
  mono : Bool := false
  env : Option EnvObj := none
  cwd : Option String := none
deriving Repr, DecidableEq

/-- The configuration record createBuildConfig returns.  outDir is the
outDir of the haste entry for the jest runner in the source; the babel
field (an external import) is outside the model. -/
structure BuildConfig where
  displayName : String
  testEnvironment : String
  testMatch : List String
  testPathIgnorePatterns : List String
  outDir : String
  runner : String
  moduleFileExtensions : List String
  rootDir : Option String
deriving Repr, DecidableEq

/-- createBuildConfig of packages/hela-dev/src/configs/build/index.js. -/
def createBuildConfig (options : BuildOptions) : BuildConfig :=
  let env := options.env.getD { NODE_ENV := "main" }
  let m := if options.mono then "packages/*/src/**/*" else "src/**/*"
  { displayName := if env.NODE_ENV == "module" then "build:esm" else "build:cjs"
    testEnvironment := "node"
    testMatch := ["<rootDir>/" ++ m]
    testPathIgnorePatterns := [".+/__tests__/.+", ".+/dist/.+"]
    outDir := if env.NODE_ENV == "module" then "dist/build/module" else "dist/build/main"
    runner := "@tunnckocore/jest-runner-babel"
    moduleFileExtensions := ["ts", "tsx", "js", "jsx", "mjs", "json"]
    rootDir := options.cwd }

end HelaDev

/-! ### Lemmas about the option-bag merge -/

theorem pick_none_left (a : Option γ) : pick none a = a := rfl

theorem pick_none_right (b : Option γ) : pick b none = b := by
  cases b <;> rfl

theorem assignExtra_nil_left (b : List (String × String)) : assignExtra [] b = b := rfl

theorem assignExtra_nil_right (a : List (String × String)) : assignExtra a [] = a := by
  simp [assignExtra, keyMem]

/-- Object.assign(\x7b\x7d, options, \x7b shell: true \x7d) only sets
shell to true. -/
theorem assign_shell_true (o : ExecOptions) :
    ExecOptions.assign o { shell := some true } = { o with shell := some true } := by
  cases o
  simp [ExecOptions.assign, pick, pick_none_left, assignExtra_nil_right]

/-- Object.assign(\x7b preferLocal: true \x7d, options) only fills in a
missing preferLocal. -/
theorem assign_defaultBase (o : ExecOptions) :
    ExecOptions.assign Execa.defaultBase o =
      { o with preferLocal := pick o.preferLocal (some true) } := by
  cases o
  simp [ExecOptions.assign, Execa.defaultBase, pick_none_right, assignExtra_nil_left]

theorem effectiveOpts_eq (o : ExecOptions) :
    Execa.effectiveOpts o =
      { o with preferLocal := pick o.preferLocal (some true), concurrency := none } := by
  unfold Execa.effectiveOpts
  rw [assign_defaultBase]

theorem concurrencyOf_eq (o : ExecOptions) :
    Execa.concurrencyOf o = o.concurrency.getD none := by
  unfold Execa.concurrencyOf
  rw [assign_defaultBase]

/-- Object.assign(\x7b\x7d, defaultOptions, options) only fills in a
missing stdio and env. -/
theorem helaEffectiveOpts_eq (envv : List (String × String)) (o : ExecOptions) :
    HelaCore.effectiveOpts envv o =
      { o with stdio := pick o.stdio (some "inherit"), env := pick o.env (some envv) } := by
  cases o
  simp [HelaCore.effectiveOpts, HelaCore.defaultOptions, ExecOptions.assign,
    pick_none_right, assignExtra_nil_left]

/-! ### List helper lemmas -/

theorem getD_mem {l : List γ} {k : Nat} (d : γ) (h : k < l.length) :
    l.getD k d ∈ l := by
  rw [List.getD_eq_getElem l d h]
  exact List.getElem_mem h

theorem mem_eraseIdx_of_ne {l : List Nat} {j : Nat} :
    ∀ {k : Nat}, k < l.length → j ∈ l → j ≠ l.getD k 0 → j ∈ l.eraseIdx k := by
  induction l with
  | nil => intro k hk _ _; simp at hk
  | cons a t ih =>
    intro k hk hj hne
    cases k with
    | zero =>
      rcases List.mem_cons.mp hj with h | h
      · exact absurd h (by simpa using hne)
      · simpa [List.eraseIdx] using h
    | succ k =>
      rcases List.mem_cons.mp hj with h | h
      · simp [List.eraseIdx, h]
      · have hmem : j ∈ t.eraseIdx k :=
          ih (Nat.lt_of_succ_lt_succ hk) h (by simpa using hne)
        simp [List.eraseIdx, hmem]

theorem length_eraseIdx_of_lt {l : List Nat} {k : Nat} (h : k < l.length) :
    (l.eraseIdx k).length = l.length - 1 := by
  rw [List.length_eraseIdx]
  simp [h]

theorem getD_set_self {l : List (Option γ)} {i : Nat} (x : Option γ) (h : i < l.length) :
    (l.set i x).getD i none = x := by
  rw [List.getD_eq_getElem _ _ (by simpa using h)]
  simp [List.getElem_set]

theorem getD_set_ne {l : List (Option γ)} {i j : Nat} (x : Option γ) (h : i ≠ j) :
    (l.set i x).getD j none = l.getD j none := by
  by_cases hj : j < l.length
  · rw [List.getD_eq_getElem _ _ (by simpa using hj), List.getD_eq_getElem _ _ hj]
    simp [List.getElem_set, h]
  · have h1 : (l.set i x).length ≤ j := by simpa using Nat.le_of_not_lt hj
    have h2 : l.length ≤ j := Nat.le_of_not_lt hj
    rw [List.getD_eq_default _ _ h1, List.getD_eq_default _ _ h2]

theorem getD_replicate_none {n j : Nat} :
    (List.replicate n (none : Option γ)).getD j none = none := by
  by_cases h : j < n
  · rw [List.getD_eq_getElem _ _ (by simpa using h)]
    simp
  · rw [List.getD_eq_default _ _ (by simpa using Nat.le_of_not_lt h)]

/-! ### The event loop: one-step equation and invariant lemmas -/

theorem pMapRun_nil (out : Nat → Except ε β) (n next : Nat) (sched : List Nat)
    (ret : List (Option β)) (fuel : Nat) :
    pMapRun out n next sched [] ret fuel = ([], Except.ok ret) := by
  cases fuel <;> rfl

theorem pMapRun_cons (out : Nat → Except ε β) (n next : Nat) (sched : List Nat)
    (i0 : Nat) (rest : List Nat) (ret : List (Option β)) (fuel : Nat) :
    pMapRun out n next sched (i0 :: rest) ret (fuel + 1) =
      (let fl := i0 :: rest
      let k := sched.headD 0 % fl.length
      let i := fl.getD k 0
      match out i with
      | .error e => ([Ev.fail i], Except.error e)
      | .ok v =>
        let ret' := ret.set i (some v)
        let fl' := fl.eraseIdx k
        if next < n then
          let r := pMapRun out n (next + 1) sched.tail (fl' ++ [next]) ret' fuel
          (Ev.finish i :: Ev.start next :: r.1, r.2)
        else
          let r := pMapRun out n next sched.tail fl' ret' fuel
          (Ev.finish i :: r.1, r.2)) := rfl

/-- Whatever the run returns with a successfully settled value, the value
records, for every input index, a result the outcome function produced
for that index (the invariant-carrying induction behind the ordered
result sequence). -/
theorem pMapRun_ok_spec (out : Nat → Except ε β) (n : Nat) :
    ∀ fuel next sched fl ret rs,
      ret.length = n →
      next ≤ n →
      (∀ i ∈ fl, i < next) →
      fl.Nodup →
      (fl = [] → next = n) →
      (n - next) + fl.length ≤ fuel →
      (∀ j, j < n → ret.getD j none = none → (j ∈ fl ∨ next ≤ j)) →
      (∀ j v, ret.getD j none = some v → out j = Except.ok v) →
      (pMapRun out n next sched fl ret fuel).2 = Except.ok rs →
      rs.length = n ∧ ∀ j, j < n → ∃ v, rs.getD j none = some v ∧ out j = Except.ok v := by
  intro fuel
  induction fuel with
  | zero =>
    intro next sched fl ret rs hlen hnext hflt _hnd hemp hfuel hcov hcor hrun
    cases fl with
    | nil =>
      rw [pMapRun_nil] at hrun
      obtain rfl : ret = rs := by simpa using hrun
      have hne : next = n := hemp rfl
      refine ⟨hlen, fun j hj => ?_⟩
      rcases hget : ret.getD j none with _ | v
      · rcases hcov j hj hget with h | h
        · simp at h
        · exact absurd hj (by omega)
      · exact ⟨v, rfl, hcor j v hget⟩
    | cons i0 rest =>
      simp only [List.length_cons] at hfuel
      omega
  | succ f ih =>
    intro next sched fl ret rs hlen hnext hflt hnd hemp hfuel hcov hcor hrun
    cases fl with
    | nil =>
      rw [pMapRun_nil] at hrun
      obtain rfl : ret = rs := by simpa using hrun
      have hne : next = n := hemp rfl
      refine ⟨hlen, fun j hj => ?_⟩
      rcases hget : ret.getD j none with _ | v
      · rcases hcov j hj hget with h | h
        · simp at h
        · exact absurd hj (by omega)
      · exact ⟨v, rfl, hcor j v hget⟩
    | cons i0 rest =>
      rw [pMapRun_cons] at hrun
      dsimp only at hrun
      have hklt : sched.headD 0 % (i0 :: rest).length < (i0 :: rest).length :=
        Nat.mod_lt _ (by simp)
      generalize hkk : sched.headD 0 % (i0 :: rest).length = k at hrun hklt
      generalize hii : (i0 :: rest).getD k 0 = i at hrun
      have hifl : i ∈ i0 :: rest := hii ▸ getD_mem 0 hklt
      have hint : i < next := hflt i hifl
      have hiltn : i < n := Nat.lt_of_lt_of_le hint hnext
      have hlerase : ((i0 :: rest).eraseIdx k).length = rest.length := by
        rw [length_eraseIdx_of_lt hklt]
        simp
      have herasesub : ∀ x ∈ (i0 :: rest).eraseIdx k, x ∈ i0 :: rest :=
        fun x hx => (List.eraseIdx_sublist (i0 :: rest) k).subset hx
      have herasend : ((i0 :: rest).eraseIdx k).Nodup :=
        (List.eraseIdx_sublist (i0 :: rest) k).nodup hnd
      have hmemerase : ∀ x ∈ i0 :: rest, x ≠ i → x ∈ (i0 :: rest).eraseIdx k :=
        fun x hx hne => mem_eraseIdx_of_ne hklt hx (hii ▸ hne)
      rcases hout : out i with e | v
      · rw [hout] at hrun
        simp at hrun
      · rw [hout] at hrun
        dsimp only at hrun
        have hcor' : ∀ j w, (ret.set i (some v)).getD j none = some w →
            out j = Except.ok w := by
          intro j w hget
          by_cases hji : j = i
          · subst hji
            rw [getD_set_self (some v) (by omega)] at hget
            obtain rfl : v = w := by simpa using hget
            exact hout
          · rw [getD_set_ne (some v) (fun h => hji h.symm)] at hget
            exact hcor j w hget
        by_cases hlt : next < n
        · rw [if_pos hlt] at hrun
          dsimp only at hrun
          refine ih (next + 1) sched.tail ((i0 :: rest).eraseIdx k ++ [next])
            (ret.set i (some v)) rs ?_ ?_ ?_ ?_ ?_ ?_ ?_ hcor' hrun
          · rw [List.length_set]; exact hlen
          · omega
          · intro x hx
            rcases List.mem_append.mp hx with h | h
            · exact Nat.lt_succ_of_lt (hflt x (herasesub x h))
            · simp at h; omega
          · refine List.Nodup.append herasend (by simp) ?_
            intro x hx hx'
            simp at hx'
            subst hx'
            exact absurd (hflt x (herasesub x hx)) (by omega)
          · intro h
            simp at h
          · simp only [List.length_append, hlerase, List.length_singleton]
            simp at hfuel
            omega
          · intro j hj hget
            by_cases hji : j = i
            · subst hji
              rw [getD_set_self (some v) (by omega)] at hget
              simp at hget
            · rw [getD_set_ne (some v) (fun h => hji h.symm)] at hget
              rcases hcov j hj hget with h | h
              · exact Or.inl (List.mem_append.mpr (Or.inl (hmemerase j h hji)))
              · by_cases hjn : j = next
                · exact Or.inl (List.mem_append.mpr (Or.inr (by simp [hjn])))
                · exact Or.inr (by omega)
        · rw [if_neg hlt] at hrun
          dsimp only at hrun
          refine ih next sched.tail ((i0 :: rest).eraseIdx k)
            (ret.set i (some v)) rs ?_ hnext ?_ herasend ?_ ?_ ?_ hcor' hrun
          · rw [List.length_set]; exact hlen
          · exact fun x hx => hflt x (herasesub x hx)
          · intro _
            omega
          · rw [hlerase]
            simp at hfuel
            omega
          · intro j hj hget
            by_cases hji : j = i
            · subst hji
              rw [getD_set_self (some v) (by omega)] at hget
              simp at hget
            · rw [getD_set_ne (some v) (fun h => hji h.symm)] at hget
              rcases hcov j hj hget with h | h
              · exact Or.inl (hmemerase j h hji)
              · exact Or.inr h

/-- An error the run settles with is an error the outcome function
produced for one of the input indices. -/
theorem pMapRun_error_spec (out : Nat → Except ε β) (n : Nat) :
    ∀ fuel next sched fl ret e,
      (∀ i ∈ fl, i < n) →
      (pMapRun out n next sched fl ret fuel).2 = Except.error e →
      ∃ i, i < n ∧ out i = Except.error e := by
  intro fuel
  induction fuel with
  | zero =>
    intro next sched fl ret e _hfl hrun
    cases fl with
    | nil => rw [pMapRun_nil] at hrun; simp at hrun
    | cons i0 rest => simp [pMapRun] at hrun
  | succ f ih =>
    intro next sched fl ret e hfl hrun
    cases fl with
    | nil => rw [pMapRun_nil] at hrun; simp at hrun
    | cons i0 rest =>
      rw [pMapRun_cons] at hrun
      dsimp only at hrun
      have hklt : sched.headD 0 % (i0 :: rest).length < (i0 :: rest).length :=
        Nat.mod_lt _ (by simp)
      generalize hkk : sched.headD 0 % (i0 :: rest).length = k at hrun hklt
      generalize hii : (i0 :: rest).getD k 0 = i at hrun
      have hifl : i ∈ i0 :: rest := hii ▸ getD_mem 0 hklt
      have herasesub : ∀ x ∈ (i0 :: rest).eraseIdx k, x ∈ i0 :: rest :=
        fun x hx => (List.eraseIdx_sublist (i0 :: rest) k).subset hx
      rcases hout : out i with e' | v
      · rw [hout] at hrun
        simp only at hrun
        obtain rfl : e' = e := by simpa using hrun
        exact ⟨i, hfl i hifl, hout⟩
      · rw [hout] at hrun
        dsimp only at hrun
        by_cases hlt : next < n
        · rw [if_pos hlt] at hrun
          dsimp only at hrun
          refine ih (next + 1) sched.tail ((i0 :: rest).eraseIdx k ++ [next])
            (ret.set i (some v)) e ?_ hrun
          intro x hx
          rcases List.mem_append.mp hx with h | h
          · exact hfl x (herasesub x h)
          · simp at h; omega
        · rw [if_neg hlt] at hrun
          dsimp only at hrun
          exact ih next sched.tail ((i0 :: rest).eraseIdx k)
            (ret.set i (some v)) e (fun x hx => hfl x (herasesub x hx)) hrun

/-- A run whose in-flight list is the single item j with j + 1 the next
index to start is exactly the strictly serial run from j: this is the
shape a concurrency limit of 1 keeps re-establishing. -/
theorem pMapRun_singleton (out : Nat → Except ε β) (n : Nat) :
    ∀ fuel j sched ret,
      pMapRun out n (j + 1) sched [j] ret fuel =
        (serialTailTrace out n j fuel, serialResultFrom out n j fuel ret) := by
  intro fuel
  induction fuel with
  | zero => intro j sched ret; rfl
  | succ f ih =>
    intro j sched ret
    rw [pMapRun_cons]
    dsimp only
    rw [show ([j] : List Nat).length = 1 from rfl, Nat.mod_one]
    rw [show ([j] : List Nat).getD 0 0 = j from rfl]
    rcases hout : out j with e | v
    · simp [serialTailTrace, serialResultFrom, hout]
    · simp only [serialTailTrace, serialResultFrom, hout]
      by_cases hjn : j + 1 < n
      · rw [if_pos hjn, if_pos hjn, if_pos hjn]
        rw [show (([j] : List Nat).eraseIdx 0 ++ [j + 1]) = [j + 1] from rfl]
        rw [ih (j + 1) sched.tail (ret.set j (some v))]
      · rw [if_neg hjn, if_neg hjn, if_neg hjn]
        rw [show ([j] : List Nat).eraseIdx 0 = ([] : List Nat) from rfl]
        rw [pMapRun_nil]

/-- A serial run whose first m outcomes succeed and whose outcome at m
fails settles with exactly that failure. -/
theorem serialResultFrom_error_at (out : Nat → Except ε β) (n : Nat) :
    ∀ fuel j m ret e, j ≤ m → m < n → m - j < fuel →
      (∀ i, j ≤ i → i < m → ∃ v, out i = Except.ok v) →
      out m = Except.error e →
      serialResultFrom out n j fuel ret = Except.error e := by
  intro fuel
  induction fuel with
  | zero =>
    intro j m ret e _ _ hf _ _
    omega
  | succ f ih =>
    intro j m ret e hjm hmn hfuel hpre herr
    by_cases hj : j = m
    · subst hj
      simp [serialResultFrom, herr]
    · have hjm' : j < m := Nat.lt_of_le_of_ne hjm hj
      obtain ⟨v, hv⟩ := hpre j le_rfl hjm'
      have hjn : j + 1 < n := by omega
      simp only [serialResultFrom, hv, if_pos hjn]
      exact ih (j + 1) m (ret.set j (some v)) e (by omega) hmn (by omega)
        (fun i hi1 hi2 => hpre i (by omega) hi2) herr

/-- The start events of a serial tail trace from j are consecutive
indices from j + 1 on. -/
theorem startedList_serialTailTrace (out : Nat → Except ε β) (n : Nat) :
    ∀ fuel j, ∃ m, startedList (serialTailTrace out n j fuel) = List.range' (j + 1) m := by
  intro fuel
  induction fuel with
  | zero => intro j; exact ⟨0, rfl⟩
  | succ f ih =>
    intro j
    rcases hout : out j with e | v
    · refine ⟨0, ?_⟩
      simp [serialTailTrace, hout, startedList]
    · by_cases hjn : j + 1 < n
      · obtain ⟨m, hm⟩ := ih (j + 1)
        refine ⟨m + 1, ?_⟩
        simp only [serialTailTrace, hout, if_pos hjn, startedList, List.filterMap_cons]
        simp only [startedList] at hm
        rw [hm, List.range'_succ]
      · refine ⟨0, ?_⟩
        simp [serialTailTrace, hout, hjn, startedList]

/-- Along a serial tail trace, at most one command is ever in flight:
starting from one in-flight command and a running maximum of m ≥ 1, the
peak never rises above m. -/
theorem peakAux_serialTailTrace (out : Nat → Except ε β) (n : Nat) :
    ∀ fuel j m, 1 ≤ m → peakAux (serialTailTrace out n j fuel) 1 m = m := by
  intro fuel
  induction fuel with
  | zero => intro j m _; rfl
  | succ f ih =>
    intro j m hm
    rcases hout : out j with e | v
    · simp [serialTailTrace, hout, peakAux]
    · by_cases hjn : j + 1 < n
      · simp only [serialTailTrace, hout, if_pos hjn, peakAux]
        rw [show (0 + 1 : Nat) = 1 from rfl, Nat.max_eq_left hm]
        exact ih (j + 1) m hm
      · simp [serialTailTrace, hout, hjn, peakAux]

/-- A list of options that is some (h j) at every index j is the image
of h over the range of its length, once the some layer is stripped. -/
theorem filterMap_id_of_getD (h : Nat → γ) :
    ∀ (l : List (Option γ)),
      (∀ j, j < l.length → l.getD j none = some (h j)) →
      l.filterMap id = (List.range l.length).map h := by
  intro l
  induction l generalizing h with
  | nil => intro _; rfl
  | cons a t ih =>
    intro hget
    have h0 : a = some (h 0) := by simpa using hget 0 (by simp)
    have ht : ∀ j, j < t.length → t.getD j none = some ((fun j => h (j + 1)) j) := by
      intro j hj
      simpa using hget (j + 1) (by simpa using Nat.succ_lt_succ hj)
    calc (a :: t).filterMap id
        = h 0 :: t.filterMap id := by simp [h0, List.filterMap_cons]
      _ = h 0 :: (List.range t.length).map (fun j => h (j + 1)) := by
          rw [ih (fun j => h (j + 1)) ht]
      _ = (List.range (a :: t).length).map h := by
          rw [show (a :: t).length = t.length + 1 from rfl, List.range_succ_eq_map]
          simp [List.map_map, Function.comp_def]

/-- Reading a list back through getD over the range of its length is the
list itself (under any map). -/
theorem range_map_getD [Inhabited γ] (g : γ → δ) :
    ∀ (l : List γ),
      (List.range l.length).map (fun j => g (l.getD j default)) = l.map g := by
  intro l
  induction l with
  | nil => rfl
  | cons a t ih =>
    rw [show (a :: t).length = t.length + 1 from rfl, List.range_succ_eq_map]
    simp only [List.map_cons, List.map_map, Function.comp_def, List.getD_cons_zero,
      List.getD_cons_succ]
    rw [ih]

/-- The initial fill of the event loop satisfies its invariants: a settled
ok value holds one recorded result per input index. -/
theorem pMapCore_ok_spec (out : Nat → Except ε β) (n k : Nat) (sched : List Nat)
    (rs : List (Option β)) (hk : k ≤ n) (hk0 : k = 0 → n = 0)
    (hrun : (pMapRun out n k sched (List.range k)
        (List.replicate n (none : Option β)) n).2 = Except.ok rs) :
    rs.length = n ∧ ∀ j, j < n → ∃ v, rs.getD j none = some v ∧ out j = Except.ok v := by
  refine pMapRun_ok_spec out n n k sched (List.range k) (List.replicate n none) rs
    ?_ hk ?_ (List.nodup_range k) ?_ ?_ ?_ ?_ hrun
  · simp
  · intro i hi
    exact List.mem_range.mp hi
  · intro h
    have hkz : k = 0 := by simpa using congrArg List.length h
    have := hk0 hkz
    omega
  · simp only [List.length_range]
    omega
  · intro j hj hget
    by_cases hjk : j < k
    · exact Or.inl (List.mem_range.mpr hjk)
    · exact Or.inr (by omega)
  · intro j v hget
    rw [getD_replicate_none] at hget
    simp at hget

/-- If every item maps to a success, the event loop with any valid
initial fill settles with the image of the items in input order. -/
theorem pMapFill_ok_spec [Inhabited α] (f : α → Except ε β) (items : List α)
    (k : Nat) (sched : List Nat) (g : α → β)
    (hk : k ≤ items.length) (hk0 : k = 0 → items.length = 0)
    (hok : ∀ c ∈ items, f c = Except.ok (g c)) :
    ((pMapRun (fun i => f (items.getD i default)) items.length k sched (List.range k)
        (List.replicate items.length (none : Option β)) items.length).2).map
      (fun ret => ret.filterMap id) = Except.ok (items.map g) := by
  rcases hres : (pMapRun (fun i => f (items.getD i default)) items.length k sched
      (List.range k) (List.replicate items.length (none : Option β)) items.length).2
    with e | retF
  · obtain ⟨i, hi, hie⟩ := pMapRun_error_spec (fun i => f (items.getD i default))
      items.length items.length k sched (List.range k)
      (List.replicate items.length (none : Option β)) e
      (fun i hi => Nat.lt_of_lt_of_le (List.mem_range.mp hi) hk) hres
    have hoki := hok _ (getD_mem default hi)
    rw [hoki] at hie
    exact Except.noConfusion hie
  · obtain ⟨hlen, hall⟩ := pMapCore_ok_spec (fun i => f (items.getD i default))
      items.length k sched retF hk hk0 hres
    have hget : ∀ j, j < retF.length →
        retF.getD j none = some ((fun j => g (items.getD j default)) j) := by
      intro j hj
      rw [hlen] at hj
      obtain ⟨v, hv, hov⟩ := hall j hj
      have hoj := hok _ (getD_mem default hj)
      rw [hoj] at hov
      obtain rfl : g (items.getD j default) = v := by simpa using hov
      exact hv
    simp only [Except.map]
    rw [filterMap_id_of_getD _ retF hget, hlen, range_map_getD]

/-- If every item maps to a success, pMap settles (under every schedule
and every positive or unbounded concurrency) with exactly the image of
the items, in input order. -/
theorem pMap_ok_spec [Inhabited α] (f : α → Except ε β) (items : List α)
    (conc : Option Nat) (sched : List Nat) (g : α → β)
    (hconc : ∀ c, conc = some c → 1 ≤ c)
    (hok : ∀ c ∈ items, f c = Except.ok (g c)) :
    (pMap f items conc sched).2 = Except.ok (items.map g) := by
  rcases conc with _ | c
  · simp only [pMap]
    exact pMapFill_ok_spec f items items.length sched g le_rfl (fun h => h) hok
  · have hc : 1 ≤ c := hconc c rfl
    simp only [pMap]
    refine pMapFill_ok_spec f items (min c items.length) sched g
      (Nat.min_le_right c items.length) ?_ hok
    intro h
    rcases Nat.min_eq_zero_iff.mp h with h1 | h1
    · omega
    · exact h1

/-- An error the event loop with an initial fill settles with is an error
the mapper produced for one of the items. -/
theorem pMapFill_error_spec [Inhabited α] (f : α → Except ε β) (items : List α)
    (k : Nat) (sched : List Nat) (e : ε) (hk : k ≤ items.length)
    (hrun : ((pMapRun (fun i => f (items.getD i default)) items.length k sched
        (List.range k) (List.replicate items.length (none : Option β))
        items.length).2).map (fun ret => ret.filterMap id) = Except.error e) :
    ∃ c ∈ items, f c = Except.error e := by
  rcases hres : (pMapRun (fun i => f (items.getD i default)) items.length k sched
      (List.range k) (List.replicate items.length (none : Option β)) items.length).2
    with e' | retF
  · have hee : e' = e := by
      rw [hres] at hrun
      simpa [Except.map] using hrun
    obtain ⟨i, hi, hie⟩ := pMapRun_error_spec (fun i => f (items.getD i default))
      items.length items.length k sched (List.range k)
      (List.replicate items.length (none : Option β)) e'
      (fun i hi => Nat.lt_of_lt_of_le (List.mem_range.mp hi) hk) hres
    exact ⟨items.getD i default, getD_mem default hi, hee ▸ hie⟩
  · rw [hres] at hrun
    simp [Except.map] at hrun

/-- An error pMap settles with is an error the mapper produced for one of
the items. -/
theorem pMap_error_spec [Inhabited α] (f : α → Except ε β) (items : List α)
    (conc : Option Nat) (sched : List Nat) (e : ε)
    (hrun : (pMap f items conc sched).2 = Except.error e) :
    ∃ c ∈ items, f c = Except.error e := by
  rcases conc with _ | c
  · simp only [pMap] at hrun
    exact pMapFill_error_spec f items items.length sched e le_rfl hrun
  · simp only [pMap] at hrun
    exact pMapFill_error_spec f items (min c items.length) sched e
      (Nat.min_le_right c items.length) hrun

/-- If some item maps to an error, pMap settles with an error (under
every schedule and every positive or unbounded concurrency). -/
theorem pMap_fails_of_mem [Inhabited α] (f : α → Except ε β) (items : List α)
    (conc : Option Nat) (sched : List Nat) (c : α) (e0 : ε)
    (hconc : ∀ cc, conc = some cc → 1 ≤ cc)
    (hc : c ∈ items) (he : f c = Except.error e0) :
    ∃ e, (pMap f items conc sched).2 = Except.error e := by
  rcases hres : (pMap f items conc sched).2 with e | rs
  · exact ⟨e, rfl⟩
  · exfalso
    obtain ⟨j, hjlt, hjget⟩ := List.mem_iff_getElem.mp hc
    suffices hsuff : ∀ jj, jj < items.length →
        ∃ v, f (items.getD jj default) = Except.ok v by
      obtain ⟨v, hv⟩ := hsuff j hjlt
      rw [List.getD_eq_getElem items default hjlt, hjget, he] at hv
      exact Except.noConfusion hv
    intro jj hjj
    rcases conc with _ | cc
    · simp only [pMap] at hres
      rcases hcore : (pMapRun (fun i => f (items.getD i default)) items.length
          items.length sched (List.range items.length)
          (List.replicate items.length (none : Option β)) items.length).2
        with e' | retF
      · rw [hcore] at hres
        simp [Except.map] at hres
      · obtain ⟨_, hall⟩ := pMapCore_ok_spec (fun i => f (items.getD i default))
          items.length items.length sched retF le_rfl (fun h => h) hcore
        obtain ⟨v, _, hov⟩ := hall jj hjj
        exact ⟨v, hov⟩
    · have hcc : 1 ≤ cc := hconc cc rfl
      simp only [pMap] at hres
      rcases hcore : (pMapRun (fun i => f (items.getD i default)) items.length
          (min cc items.length) sched (List.range (min cc items.length))
          (List.replicate items.length (none : Option β)) items.length).2
        with e' | retF
      · rw [hcore] at hres
        simp [Except.map] at hres
      · have hk0' : min cc items.length = 0 → items.length = 0 := by
          intro h
          rcases Nat.min_eq_zero_iff.mp h with h1 | h1
          · omega
          · exact h1
        obtain ⟨_, hall⟩ := pMapCore_ok_spec (fun i => f (items.getD i default))
          items.length (min cc items.length) sched retF
          (Nat.min_le_right cc items.length) hk0' hcore
        obtain ⟨v, _, hov⟩ := hall jj hjj
        exact ⟨v, hov⟩

/-- With concurrency 1 the whole pMap run is the strictly serial run: one
start event, then the serial tail, and the serial settled value. -/
theorem pMap_conc_one [Inhabited α] (f : α → Except ε β) (items : List α)
    (sched : List Nat) (hne : items ≠ []) :
    pMap f items (some 1) sched =
      (Ev.start 0 :: serialTailTrace (fun i => f (items.getD i default))
          items.length 0 items.length,
        (serialResultFrom (fun i => f (items.getD i default)) items.length 0
            items.length (List.replicate items.length none)).map
          (fun ret => ret.filterMap id)) := by
  have hn : 0 < items.length := List.length_pos.mpr hne
  simp only [pMap]
  rw [Nat.min_eq_left hn]
  rw [show List.range 1 = [0] from rfl]
  rw [show (Nat.succ 0 : Nat) = 0 + 1 from rfl]
  rw [pMapRun_singleton (fun i => f (items.getD i default)) items.length items.length 0
    sched (List.replicate items.length none)]
  simp

/-- The trace of an unbounded pMap run opens with a start event for every
item, in input order, before any completion. -/
theorem take_length_append (l l' : List γ) (n : Nat) (h : l.length = n) :
    (l ++ l').take n = l := by
  subst h
  exact List.take_left l l'

theorem pMap_unbounded_trace [Inhabited α] (f : α → Except ε β) (items : List α)
    (sched : List Nat) :
    (pMap f items none sched).1.take items.length =
      (List.range items.length).map Ev.start := by
  simp only [pMap]
  exact take_length_append _ _ _ (by simp)

/-- The serial executor fails with the outcome of the first failing
command when all earlier commands succeed. -/
theorem runSerial_error_at (g : String → Except ε β) :
    ∀ (l : List String) (m : Nat) (e : ε), m < l.length →
      (∀ i, i < m → ∃ v, g (l.getD i default) = Except.ok v) →
      g (l.getD m default) = Except.error e →
      HelaCore.runSerial g l = Except.error e := by
  intro l
  induction l with
  | nil =>
    intro m e hm _ _
    simp at hm
  | cons c t ih =>
    intro m e hm hpre herr
    cases m with
    | zero =>
      simp only [List.getD_cons_zero] at herr
      simp [HelaCore.runSerial, herr]
    | succ m =>
      obtain ⟨v, hv⟩ := hpre 0 (Nat.succ_pos m)
      simp only [List.getD_cons_zero] at hv
      simp only [HelaCore.runSerial, hv]
      exact ih m e (Nat.lt_of_succ_lt_succ hm)
        (fun i hi => by simpa using hpre (i + 1) (Nat.succ_lt_succ hi))
        (by simpa using herr)

/-- The serial executor succeeds when every command succeeds. -/
theorem runSerial_ok (g : String → Except ε β) :
    ∀ (l : List String),
      (∀ c ∈ l, ∃ v, g c = Except.ok v) →
      HelaCore.runSerial g l = Except.ok () := by
  intro l
  induction l with
  | nil => intro _; rfl
  | cons c t ih =>
    intro hok
    obtain ⟨v, hv⟩ := hok c (by simp)
    simp only [HelaCore.runSerial, hv]
    exact ih (fun x hx => hok x (by simp [hx]))

/-- Looking a task up after storing it finds exactly the stored task. -/
theorem findTask_putTask (l : List (String × HelaCore.TaskObj)) (name : String)
    (t : HelaCore.TaskObj) :
    HelaCore.findTask (HelaCore.putTask l name t) name = some t := by
  unfold HelaCore.findTask HelaCore.putTask
  rw [List.find?_append]
  have h1 : (l.filter (fun p => p.1 != name)).find? (fun p => p.1 == name) = none := by
    rw [List.find?_eq_none]
    intro x hx
    have hxf := (List.mem_filter.mp hx).2
    simp only [bne_iff_ne, ne_eq] at hxf
    simp only [beq_iff_eq]
    exact hxf
  rw [h1, List.find?_cons_of_pos _ (by simp)]
  rfl

/-! ### Claim theorems -/

/-- C4: shell(cmds, options) behaves identically to exec(cmds, options
with the shell field unconditionally set to true) — even when the caller
set shell to false — in both the library and the hela-core variant, so
normalization, concurrency and failure policy are exactly those of exec
at the adjusted options. -/
theorem C4_shell_delegates_with_shell_true {ε β : Type} :
    ∀ (cmds : Cmds) (options : ExecOptions)
      (runner : String → ExecOptions → Except ε β) (sched : List Nat)
      (envv : List (String × String)),
      Execa.shell cmds options runner sched =
        Execa.exec cmds { options with shell := some true } runner sched ∧
      HelaCore.shell envv cmds options runner =
        HelaCore.exec envv cmds { options with shell := some true } runner := by
  intro cmds options runner sched envv
  constructor
  · unfold Execa.shell
    rw [assign_shell_true]
  · unfold HelaCore.shell
    rw [assign_shell_true]

/-- C7: when parsing resolves no command name and no positional
arguments, listen returns normally without raising: a falsy parse result
is a silent no-op, and so is a result whose args and name are both
falsy — for every handler, so no handler behavior is ever observed. -/
theorem C7_listen_silent_noop :
    HelaCore.listen HelaCore.ParseOutcome.undef = Except.ok () ∧
    ∀ handler,
      HelaCore.listen (HelaCore.ParseOutcome.res none "" handler) = Except.ok () :=
  ⟨rfl, fun _ => rfl⟩

/-- C9: the build configuration's test glob is the mono glob exactly when
mono is truthy, its display name and output directory follow the
effective NODE_ENV (module versus anything else, the default env being
NODE_ENV = main, which selects the cjs names), and its root directory is
the cwd option. -/
theorem C9_build_config_fields (options : HelaDev.BuildOptions) :
    (HelaDev.createBuildConfig options).testMatch =
      [if options.mono then "<rootDir>/packages/*/src/**/*" else "<rootDir>/src/**/*"] ∧
    (HelaDev.createBuildConfig options).displayName =
      (if (options.env.getD { NODE_ENV := "main" }).NODE_ENV == "module"
        then "build:esm" else "build:cjs") ∧
    (HelaDev.createBuildConfig options).outDir =
      (if (options.env.getD { NODE_ENV := "main" }).NODE_ENV == "module"
        then "dist/build/module" else "dist/build/main") ∧
    (options.env = none →
      (HelaDev.createBuildConfig options).displayName = "build:cjs" ∧
      (HelaDev.createBuildConfig options).outDir = "dist/build/main") ∧
    (HelaDev.createBuildConfig options).rootDir = options.cwd := by
  obtain ⟨mono, env, cwd⟩ := options
  refine ⟨?_, rfl, rfl, ?_, rfl⟩
  · cases mono <;> rfl
  · intro henv
    cases env with
    | none => exact ⟨rfl, rfl⟩
    | some e => exact absurd henv (by simp)

/-- C10: when normalization leaves no truthy command, both exec variants
and both shell adapters resolve successfully with an empty event trace —
no start event and a result independent of the runner, so no command
ever reaches the ProcessRunner. -/
theorem C10_empty_commands_noop {ε β : Type} (cmds : Cmds)
    (hempty : cmds.normalize = []) :
    ∀ (options : ExecOptions) (runner : String → ExecOptions → Except ε β)
      (sched : List Nat) (envv : List (String × String)),
      Execa.exec cmds options runner sched = ([], Except.ok []) ∧
      Execa.shell cmds options runner sched = ([], Except.ok []) ∧
      HelaCore.exec envv cmds options runner = Except.ok none ∧
      HelaCore.shell envv cmds options runner = Except.ok none := by
  intro options runner sched envv
  have hexec : ∀ o : ExecOptions, Execa.exec cmds o runner sched = ([], Except.ok []) := by
    intro o
    unfold Execa.exec
    rcases hc : Execa.concurrencyOf o with _ | c <;>
      simp [pMap, hempty, pMapRun_nil, Except.map]
  have hhela : ∀ o : ExecOptions, HelaCore.exec envv cmds o runner = Except.ok none := by
    intro o
    unfold HelaCore.exec
    rw [hempty]
    rfl
  exact ⟨hexec options, hexec _, hhela options, hhela _⟩

/-- C10 witness: a list holding only an empty string and a null. -/
theorem C10_witness :
    (Cmds.list [some "", none]).normalize = [] ∧
    ∀ (options : ExecOptions) (runner : String → ExecOptions → Except String String)
      (sched : List Nat) (envv : List (String × String)),
      Execa.exec (Cmds.list [some "", none]) options runner sched = ([], Except.ok []) ∧
      Execa.shell (Cmds.list [some "", none]) options runner sched = ([], Except.ok []) ∧
      HelaCore.exec envv (Cmds.list [some "", none]) options runner = Except.ok none ∧
      HelaCore.shell envv (Cmds.list [some "", none]) options runner = Except.ok none :=
  ⟨rfl, C10_empty_commands_noop (Cmds.list [some "", none]) rfl⟩

/-- C6: when the matched task's handler throws, listen catches the error,
attaches commandArgv (the last invocation argument, the one args.pop()
removes — or undefined when there is none), commandArgs (the remaining
arguments after the pop) and commandName (the resolved task name), and
re-raises the same error object: its commandName is the task name and
every untouched field, the message included, is preserved. -/
theorem C6_listen_enriches_error (args : Option (List HelaCore.JsVal)) (name : String)
    (handler : List HelaCore.JsVal → Except HelaCore.JsErr HelaCore.JsVal)
    (err : HelaCore.JsErr)
    (hmatched : (args.isNone && name == "") = false)
    (hthrows : handler (args.getD []) = Except.error err) :
    HelaCore.listen (HelaCore.ParseOutcome.res args name handler) =
      Except.error { err with
        commandArgv := (args.getD []).getLast?
        commandArgs := some (args.getD []).dropLast
        commandName := some name } ∧
    ({ err with
        commandArgv := (args.getD []).getLast?
        commandArgs := some (args.getD []).dropLast
        commandName := some name } : HelaCore.JsErr).commandName = some name ∧
    ({ err with
        commandArgv := (args.getD []).getLast?
        commandArgs := some (args.getD []).dropLast
        commandName := some name } : HelaCore.JsErr).message = err.message := by
  refine ⟨?_, rfl, rfl⟩
  unfold HelaCore.listen
  dsimp only
  rw [if_neg (by simp [hmatched])]
  rw [hthrows]

/-- C6 witness: the task named build whose handler throws boom. -/
theorem C6_witness :
    ((some [HelaCore.JsVal.argv { pos := ["build"], flags := [] }] :
        Option (List HelaCore.JsVal)).isNone && "build" == "") = false ∧
    (fun _ => Except.error { message := "boom" } :
        List HelaCore.JsVal → Except HelaCore.JsErr HelaCore.JsVal)
      ((some [HelaCore.JsVal.argv { pos := ["build"], flags := [] }] :
          Option (List HelaCore.JsVal)).getD []) =
      Except.error { message := "boom" } ∧
    (HelaCore.listen (HelaCore.ParseOutcome.res
        (some [HelaCore.JsVal.argv { pos := ["build"], flags := [] }]) "build"
        (fun _ => Except.error { message := "boom" })) =
      Except.error { ({ message := "boom" } : HelaCore.JsErr) with
        commandArgv := ((some [HelaCore.JsVal.argv { pos := ["build"], flags := [] }] :
            Option (List HelaCore.JsVal)).getD []).getLast?
        commandArgs := some ((some [HelaCore.JsVal.argv { pos := ["build"], flags := [] }] :
            Option (List HelaCore.JsVal)).getD []).dropLast
        commandName := some "build" } ∧
      ({ ({ message := "boom" } : HelaCore.JsErr) with
        commandArgv := ((some [HelaCore.JsVal.argv { pos := ["build"], flags := [] }] :
            Option (List HelaCore.JsVal)).getD []).getLast?
        commandArgs := some ((some [HelaCore.JsVal.argv { pos := ["build"], flags := [] }] :
            Option (List HelaCore.JsVal)).getD []).dropLast
        commandName := some "build" } : HelaCore.JsErr).commandName = some "build" ∧
      ({ ({ message := "boom" } : HelaCore.JsErr) with
        commandArgv := ((some [HelaCore.JsVal.argv { pos := ["build"], flags := [] }] :
            Option (List HelaCore.JsVal)).getD []).getLast?
        commandArgs := some ((some [HelaCore.JsVal.argv { pos := ["build"], flags := [] }] :
            Option (List HelaCore.JsVal)).getD []).dropLast
        commandName := some "build" } : HelaCore.JsErr).message =
        ({ message := "boom" } : HelaCore.JsErr).message) :=
  ⟨rfl, rfl,
    C6_listen_enriches_error
      (some [HelaCore.JsVal.argv { pos := ["build"], flags := [] }]) "build"
      (fun _ => Except.error { message := "boom" }) { message := "boom" } rfl rfl⟩

/-- C8: attaching a handler via action registers the cwd option, with the
current working directory as its default, on the resolved task, and wraps
the handler so every invocation appends to the parser-produced arguments
one synthesized argv object whose positional list holds just the task
name, merged over the task's default argument values (the freshly
registered cwd default included). -/
theorem C8_action_wraps_handler (st : HelaCore.HelaProg)
    (fn : List HelaCore.JsVal → Except HelaCore.JsErr HelaCore.JsVal)
    (cwd name : String) (t : HelaCore.TaskObj)
    (hname : st.curr.getD "__default__" = name)
    (ht : HelaCore.findTask st.tree name = some t) :
    ∃ t', HelaCore.findTask (HelaCore.action st (some fn) cwd).tree name = some t' ∧
      ("--cwd", "Current working directory", cwd) ∈ t'.options ∧
      t'.default = { t.default with
        flags := HelaCore.setFlag t.default.flags "cwd" cwd } ∧
      ∀ args, t'.handler args =
        fn (args ++ [HelaCore.JsVal.argv
          { pos := [name], flags := HelaCore.setFlag t.default.flags "cwd" cwd }]) := by
  unfold HelaCore.action
  dsimp only
  rw [hname, ht]
  dsimp only [Option.getD]
  refine ⟨_, findTask_putTask _ _ _, ?_, ?_, ?_⟩
  · simp [HelaCore.sadeOption]
  · rfl
  · intro args
    rfl

/-- C8 witness: the task named build with one default flag, a handler and
the working directory /x. -/
theorem C8_witness :
    (({ curr := some "build", tree := [("build", { default := { pos := [], flags := [("verbose", "1")] } })], commands := [] } : HelaCore.HelaProg).curr.getD "__default__" = "build") ∧
    HelaCore.findTask ({ curr := some "build", tree := [("build", { default := { pos := [], flags := [("verbose", "1")] } })], commands := [] } : HelaCore.HelaProg).tree "build" = some { default := { pos := [], flags := [("verbose", "1")] } } ∧
    ∃ t', HelaCore.findTask (HelaCore.action { curr := some "build", tree := [("build", { default := { pos := [], flags := [("verbose", "1")] } })], commands := [] } (some (fun _ => Except.ok (HelaCore.JsVal.str "done"))) "/x").tree "build" = some t' ∧
      ("--cwd", "Current working directory", "/x") ∈ t'.options ∧
      t'.default = { ({ default := { pos := [], flags := [("verbose", "1")] } } : HelaCore.TaskObj).default with flags := HelaCore.setFlag ({ default := { pos := [], flags := [("verbose", "1")] } } : HelaCore.TaskObj).default.flags "cwd" "/x" } ∧
      ∀ args, t'.handler args =
        (fun _ => Except.ok (HelaCore.JsVal.str "done") : List HelaCore.JsVal → Except HelaCore.JsErr HelaCore.JsVal)
          (args ++ [HelaCore.JsVal.argv { pos := ["build"], flags := HelaCore.setFlag ({ default := { pos := [], flags := [("verbose", "1")] } } : HelaCore.TaskObj).default.flags "cwd" "/x" }]) :=
  ⟨rfl, rfl,
    C8_action_wraps_handler
      { curr := some "build", tree := [("build", { default := { pos := [], flags := [("verbose", "1")] } })], commands := [] }
      (fun _ => Except.ok (HelaCore.JsVal.str "done")) "/x" "build"
      { default := { pos := [], flags := [("verbose", "1")] } } rfl rfl⟩

/-- C1 (amended): for the library exec, whenever every normalized command
succeeds under the effective options, the batch resolves — for every
positive or unbounded concurrency and every completion schedule — with
the runner results in exactly the length and order of the filtered input
(falsy entries dropped, a single command treated as a one-element list);
the hela-core exec variant, by contrast, runs the same filtered commands
but always resolves with undefined (none), never with a result
sequence. -/
theorem C1_exec_resolves_ordered_results {ε β : Type} (cmds : Cmds)
    (options : ExecOptions) (runner : String → ExecOptions → Except ε β)
    (sched : List Nat) (g : String → β)
    (hconc : ∀ c, Execa.concurrencyOf options = some c → 1 ≤ c)
    (hok : ∀ c ∈ cmds.normalize,
        runner c (Execa.effectiveOpts options) = Except.ok (g c)) :
    (Execa.exec cmds options runner sched).2 = Except.ok (cmds.normalize.map g) ∧
    (cmds.normalize.map g).length = cmds.normalize.length ∧
    ∀ (ε' β' : Type) (envv : List (String × String)) (options2 : ExecOptions)
      (runner2 : String → ExecOptions → Except ε' β') (v : Option (List β')),
      HelaCore.exec envv cmds options2 runner2 = Except.ok v → v = none := by
  refine ⟨?_, by simp, ?_⟩
  · unfold Execa.exec
    exact pMap_ok_spec _ cmds.normalize _ sched g hconc hok
  · intro ε' β' envv options2 runner2 v h
    unfold HelaCore.exec at h
    rcases hr : HelaCore.runSerial
        (fun c => runner2 c (HelaCore.effectiveOpts envv options2)) cmds.normalize
      with e | u
    · rw [hr] at h
      exact Except.noConfusion h
    · rw [hr] at h
      simp only [Except.map] at h
      exact (Except.ok.inj h).symm

/-- C1 counterexample: hela-core's exec at a single successful command
resolves with undefined (none) — not with a one-element result
sequence — although the filtered input holds exactly one command. -/
theorem C1_counterexample :
    HelaCore.exec [] (Cmds.single (some "echo a")) {}
        (fun _ _ => (Except.ok "ran" : Except String String)) = Except.ok none ∧
    (Cmds.single (some "echo a")).normalize.length = 1 ∧
    HelaCore.exec [] (Cmds.single (some "echo a")) {}
        (fun _ _ => (Except.ok "ran" : Except String String)) ≠
      Except.ok (some ["ran"]) := by
  refine ⟨rfl, rfl, fun h => ?_⟩
  exact Option.noConfusion (Except.ok.inj h)

/-- C1 witness: three entries, one falsy, executed under an echoing
runner with the default options and a schedule. -/
theorem C1_witness :
    (∀ c, Execa.concurrencyOf ({} : ExecOptions) = some c → 1 ≤ c) ∧
    (∀ c ∈ (Cmds.list [some "a", none, some "b"]).normalize,
        (fun (c : String) (_ : ExecOptions) =>
            (Except.ok ("ran:" ++ c) : Except String String)) c
          (Execa.effectiveOpts {}) = Except.ok ((fun c => "ran:" ++ c) c)) ∧
    ((Execa.exec (Cmds.list [some "a", none, some "b"]) {}
        (fun (c : String) (_ : ExecOptions) =>
          (Except.ok ("ran:" ++ c) : Except String String)) [1, 0]).2 =
      Except.ok ((Cmds.list [some "a", none, some "b"]).normalize.map
        (fun c => "ran:" ++ c)) ∧
    ((Cmds.list [some "a", none, some "b"]).normalize.map
        (fun c => "ran:" ++ c)).length =
      (Cmds.list [some "a", none, some "b"]).normalize.length ∧
    ∀ (ε' β' : Type) (envv : List (String × String)) (options2 : ExecOptions)
      (runner2 : String → ExecOptions → Except ε' β') (v : Option (List β')),
      HelaCore.exec envv (Cmds.list [some "a", none, some "b"]) options2 runner2 =
        Except.ok v → v = none) :=
  ⟨fun _ h => Option.noConfusion h, fun _ _ => rfl,
    C1_exec_resolves_ordered_results (Cmds.list [some "a", none, some "b"]) {}
      (fun (c : String) (_ : ExecOptions) =>
        (Except.ok ("ran:" ++ c) : Except String String)) [1, 0] (fun c => "ran:" ++ c)
      (fun _ h => Option.noConfusion h) (fun _ _ => rfl)⟩

/-- C5 (amended): for the library exec with preferLocal and concurrency
both omitted, the effective options handed to the ProcessRunner are the
caller options with preferLocal set to true and the concurrency key
removed — every other field forwarded verbatim — the limit handed to the
mapper is unbounded, and the trace opens with a start event for every
command before any completion; hela-core's exec instead only fills in
stdio and env defaults, sets no preferLocal at all, and forwards the
caller options (the concurrency key included) verbatim. -/
theorem C5_effective_options {ε β : Type} (options : ExecOptions)
    (hpl : options.preferLocal = none) (hconc : options.concurrency = none) :
    Execa.effectiveOpts options =
      { options with preferLocal := some true, concurrency := none } ∧
    Execa.concurrencyOf options = none ∧
    (∀ (cmds : Cmds) (runner : String → ExecOptions → Except ε β) (sched : List Nat),
        Execa.exec cmds options runner sched =
          pMap (fun c => runner c (Execa.effectiveOpts options)) cmds.normalize
            none sched) ∧
    (∀ (cmds : Cmds) (runner : String → ExecOptions → Except ε β) (sched : List Nat),
        (Execa.exec cmds options runner sched).1.take cmds.normalize.length =
          (List.range cmds.normalize.length).map Ev.start) ∧
    (∀ envv, HelaCore.effectiveOpts envv options =
        { options with stdio := pick options.stdio (some "inherit"),
                       env := pick options.env (some envv) }) ∧
    (∀ envv, (HelaCore.effectiveOpts envv options).preferLocal = none) ∧
    (∀ envv, (HelaCore.effectiveOpts envv options).concurrency = options.concurrency) := by
  have hco : Execa.concurrencyOf options = none := by
    rw [concurrencyOf_eq, hconc]
    rfl
  refine ⟨?_, hco, ?_, ?_, ?_, ?_, ?_⟩
  · rw [effectiveOpts_eq, hpl]
    rfl
  · intro cmds runner sched
    unfold Execa.exec
    rw [hco]
  · intro cmds runner sched
    unfold Execa.exec
    rw [hco]
    exact pMap_unbounded_trace _ _ _
  · intro envv
    rw [helaEffectiveOpts_eq]
  · intro envv
    rw [helaEffectiveOpts_eq]
    exact hpl
  · intro envv
    rw [helaEffectiveOpts_eq]

/-- C5 counterexample: with preferLocal and concurrency both omitted,
hela-core's exec hands the ProcessRunner effective options containing no
preferLocal at all, not preferLocal = true. -/
theorem C5_counterexample :
    ({} : ExecOptions).preferLocal = none ∧
    ({} : ExecOptions).concurrency = none ∧
    (HelaCore.effectiveOpts [] {}).preferLocal = none ∧
    (HelaCore.effectiveOpts [] {}).preferLocal ≠ some true :=
  ⟨rfl, rfl, rfl, fun h => Option.noConfusion h⟩

/-- C5 witness: the empty options record. -/
theorem C5_witness :
    ({} : ExecOptions).preferLocal = none ∧
    ({} : ExecOptions).concurrency = none ∧
    (Execa.effectiveOpts {} =
      { ({} : ExecOptions) with preferLocal := some true, concurrency := none } ∧
    Execa.concurrencyOf {} = none ∧
    (∀ (cmds : Cmds) (runner : String → ExecOptions → Except String String)
        (sched : List Nat),
        Execa.exec cmds {} runner sched =
          pMap (fun c => runner c (Execa.effectiveOpts {})) cmds.normalize
            none sched) ∧
    (∀ (cmds : Cmds) (runner : String → ExecOptions → Except String String)
        (sched : List Nat),
        (Execa.exec cmds {} runner sched).1.take cmds.normalize.length =
          (List.range cmds.normalize.length).map Ev.start) ∧
    (∀ envv, HelaCore.effectiveOpts envv {} =
        { ({} : ExecOptions) with stdio := pick ({} : ExecOptions).stdio (some "inherit"),
                                  env := pick ({} : ExecOptions).env (some envv) }) ∧
    (∀ envv, (HelaCore.effectiveOpts envv {}).preferLocal = none) ∧
    (∀ envv, (HelaCore.effectiveOpts envv {}).concurrency =
        ({} : ExecOptions).concurrency)) :=
  ⟨rfl, rfl, C5_effective_options {} rfl rfl⟩

/-- C2 (amended): an error the batch rejects with is always an error
produced by one of the normalized commands, and whenever any normalized
command fails the batch rejects (for every valid concurrency and every
completion schedule); under concurrency 1 — and in hela-core's
always-serial exec — the rejection error is exactly the ExecutionError
of the first failing command in input order.  Under higher concurrency
the surfaced error is the first failure in completion order, which can
differ from input order (see the counterexample). -/
theorem C2_first_failure_policy :
    (∀ (ε β : Type) (cmds : Cmds) (options : ExecOptions)
        (runner : String → ExecOptions → Except ε β) (sched : List Nat) (e : ε),
        (Execa.exec cmds options runner sched).2 = Except.error e →
        ∃ c ∈ cmds.normalize,
          runner c (Execa.effectiveOpts options) = Except.error e) ∧
    (∀ (ε β : Type) (cmds : Cmds) (options : ExecOptions)
        (runner : String → ExecOptions → Except ε β) (sched : List Nat)
        (c : String) (e0 : ε),
        (∀ cc, Execa.concurrencyOf options = some cc → 1 ≤ cc) →
        c ∈ cmds.normalize →
        runner c (Execa.effectiveOpts options) = Except.error e0 →
        ∃ e, (Execa.exec cmds options runner sched).2 = Except.error e) ∧
    (∀ (ε β : Type) (cmds : Cmds) (options : ExecOptions)
        (runner : String → ExecOptions → Except ε β) (sched : List Nat)
        (m : Nat) (e : ε),
        Execa.concurrencyOf options = some 1 →
        m < cmds.normalize.length →
        (∀ i, i < m → ∃ v, runner (cmds.normalize.getD i default)
            (Execa.effectiveOpts options) = Except.ok v) →
        runner (cmds.normalize.getD m default) (Execa.effectiveOpts options) =
          Except.error e →
        (Execa.exec cmds options runner sched).2 = Except.error e) ∧
    (∀ (ε β : Type) (envv : List (String × String)) (cmds : Cmds)
        (options : ExecOptions) (runner : String → ExecOptions → Except ε β)
        (m : Nat) (e : ε),
        m < cmds.normalize.length →
        (∀ i, i < m → ∃ v, runner (cmds.normalize.getD i default)
            (HelaCore.effectiveOpts envv options) = Except.ok v) →
        runner (cmds.normalize.getD m default) (HelaCore.effectiveOpts envv options) =
          Except.error e →
        HelaCore.exec envv cmds options runner = Except.error e) := by
  refine ⟨?_, ?_, ?_, ?_⟩
  · intro ε β cmds options runner sched e h
    unfold Execa.exec at h
    exact pMap_error_spec _ cmds.normalize _ sched e h
  · intro ε β cmds options runner sched c e0 hconc hc he
    unfold Execa.exec
    exact pMap_fails_of_mem _ cmds.normalize _ sched c e0 hconc hc he
  · intro ε β cmds options runner sched m e hconc hm hpre herr
    have hne : cmds.normalize ≠ [] := by
      intro h
      rw [h] at hm
      simp at hm
    unfold Execa.exec
    rw [hconc, pMap_conc_one _ _ _ hne]
    have hser := serialResultFrom_error_at
      (fun i => (fun c => runner c (Execa.effectiveOpts options))
        (cmds.normalize.getD i default))
      cmds.normalize.length cmds.normalize.length 0 m
      (List.replicate cmds.normalize.length none) e
      (Nat.zero_le m) hm (by omega) (fun i _ hi => hpre i hi) herr
    rw [hser]
    rfl
  · intro ε β envv cmds options runner m e hm hpre herr
    unfold HelaCore.exec
    rw [runSerial_error_at (fun c => runner c (HelaCore.effectiveOpts envv options))
      cmds.normalize m e hm hpre herr]
    rfl

/-- C2 counterexample: two commands that both fail, under unbounded
concurrency and a schedule on which the second command's failure
completes first: the batch rejects with the second command's error, not
with the error of the first failing command in input order (the first
command, whose error differs). -/
theorem C2_counterexample :
    (Execa.exec (Cmds.list [some "a", some "b"]) {}
        (fun c _ => (Except.error c : Except String Unit)) [1]).2 =
      Except.error "b" ∧
    (Cmds.list [some "a", some "b"]).normalize.getD 0 default = "a" ∧
    (fun (c : String) (_ : ExecOptions) => (Except.error c : Except String Unit)) "a"
        (Execa.effectiveOpts {}) = Except.error "a" ∧
    ("b" : String) ≠ "a" := by
  refine ⟨?_, rfl, rfl, ?_⟩
  · rfl
  · decide

/-- A serial trace (one start, then the serial tail) starts its commands
in strictly increasing input order from 0 and never has two commands in
flight at once. -/
theorem serial_trace_properties (out : Nat → Except ε β) (n : Nat) (fuel : Nat) :
    startedList (Ev.start 0 :: serialTailTrace out n 0 fuel) =
      List.range (startedList (Ev.start 0 :: serialTailTrace out n 0 fuel)).length ∧
    peakInFlight (Ev.start 0 :: serialTailTrace out n 0 fuel) ≤ 1 := by
  constructor
  · obtain ⟨m, hm⟩ := startedList_serialTailTrace out n fuel 0
    have hcons : startedList (Ev.start 0 :: serialTailTrace out n 0 fuel) =
        0 :: startedList (serialTailTrace out n 0 fuel) := by
      simp [startedList]
    rw [hcons, hm]
    have hr : (0 : Nat) :: List.range' (0 + 1) m = List.range (m + 1) := by
      rw [List.range_eq_range', List.range'_succ]
    rw [hr]
    simp
  · have hpk : peakInFlight (Ev.start 0 :: serialTailTrace out n 0 fuel) =
        peakAux (serialTailTrace out n 0 fuel) 1 1 := by
      simp [peakInFlight, peakAux]
    rw [hpk, peakAux_serialTailTrace out n fuel 0 1 le_rfl]

/-- C3: with concurrency 1 and a non-empty normalized command list, the
commands are started strictly in input order (the trace's start events
are exactly 0, 1, 2, ... in that order) and no two commands ever overlap
(at most one command is in flight at any point of the trace), under
every completion schedule and every runner. -/
theorem C3_serial_no_overlap {ε β : Type} (cmds : Cmds) (options : ExecOptions)
    (runner : String → ExecOptions → Except ε β) (sched : List Nat)
    (hconc : Execa.concurrencyOf options = some 1)
    (hne : cmds.normalize ≠ []) :
    startedList (Execa.exec cmds options runner sched).1 =
      List.range (startedList (Execa.exec cmds options runner sched).1).length ∧
    peakInFlight (Execa.exec cmds options runner sched).1 ≤ 1 := by
  have htr : (Execa.exec cmds options runner sched).1 =
      Ev.start 0 :: serialTailTrace
        (fun i => (fun c => runner c (Execa.effectiveOpts options))
          (cmds.normalize.getD i default))
        cmds.normalize.length 0 cmds.normalize.length := by
    unfold Execa.exec
    rw [hconc, pMap_conc_one _ _ _ hne]
  rw [htr]
  exact serial_trace_properties _ cmds.normalize.length cmds.normalize.length

/-- C3 witness: two commands under concurrency 1 and an adversarial
schedule. -/
theorem C3_witness :
    Execa.concurrencyOf { concurrency := some (some 1) } = some 1 ∧
    (Cmds.list [some "a", some "b"]).normalize ≠ [] ∧
    (startedList (Execa.exec (Cmds.list [some "a", some "b"])
        { concurrency := some (some 1) }
        (fun (c : String) (_ : ExecOptions) => (Except.ok c : Except String String))
        [7, 7]).1 =
      List.range (startedList (Execa.exec (Cmds.list [some "a", some "b"])
        { concurrency := some (some 1) }
        (fun (c : String) (_ : ExecOptions) => (Except.ok c : Except String String))
        [7, 7]).1).length ∧
    peakInFlight (Execa.exec (Cmds.list [some "a", some "b"])
        { concurrency := some (some 1) }
        (fun (c : String) (_ : ExecOptions) => (Except.ok c : Except String String))
        [7, 7]).1 ≤ 1) :=
  ⟨rfl, by decide,
    C3_serial_no_overlap (Cmds.list [some "a", some "b"]) { concurrency := some (some 1) }
      (fun (c : String) (_ : ExecOptions) => (Except.ok c : Except String String))
      [7, 7] rfl (by decide)⟩
